import Mathlib

/-!
# wtop: block window scan, net-amount aggregation and wallet ranking

A shallow embedding of `main.go` (`listWallets`, `sortWallets`, the reporting
part of `main`) and of `getblock/eth/client.go` (`Client.Call`).

* `*big.Int` values are `Int` (arbitrary precision, no overflow).
* `map[string]*big.Int` is an association list with one entry per key; the
  loop of `listWallets` allocates one fresh `big.Int` per new key and only ever
  mutates the value it has just looked up, so no two keys share a value and the
  pointer structure can be dropped.
* Goroutines, the channel and `errgroup` are sequentialised: the order in which
  transactions arrive on the channel and the order in which tasks return are
  explicit arguments, and theorems quantify over them.
-/

namespace Wtop

/-! ## Data model -/

/-- Modelled from the spec: the type `eth.Transaction` is declared in a file of
package `eth` that is not part of the sources at hand. The spec gives
`{from: address, to: address, value: integer (wei)}`; `listWallets` reads the
fields `t.From`, `t.To` (map keys of type `string`) and `t.Value` (a
`*big.Int`). -/
structure Transaction where
  From : String
  To : String
  Value : Int
deriving DecidableEq, Repr

/-- Modelled from the spec: the type `eth.Block` is declared in a file of
package `eth` that is not part of the sources at hand. `listWallets` reads only
`b.Transactions`. -/
structure Block where
  Transactions : List Transaction
deriving DecidableEq, Repr

/-- The struct `wallet` of `main.go`. -/
structure wallet where
  address : String
  amount : Int
deriving DecidableEq, Repr

/-! ## The map `m` of `listWallets` -/

/-- A Go `map[string]*big.Int`, as a list of entries. -/
abbrev AmountMap := List (String × Int)

/-- The Go expression `v, ok := m[k]`: `some v` when `ok`, `none` otherwise. -/
def lookup : AmountMap → String → Option Int
  | [], _ => none
  | (k', v) :: rest, k => if k' = k then some v else lookup rest k

/-- The Go statement `m[k] = v`: overwrite the entry of `k`, or add one. -/
def store : AmountMap → String → Int → AmountMap
  | [], k, v => [(k, v)]
  | (k', v') :: rest, k, v =>
    if k' = k then (k, v) :: rest else (k', v') :: store rest k v

/-- The keys of the map. -/
def keys (m : AmountMap) : List String := m.map Prod.fst

/-- The sum of the amounts of all entries of the map. -/
def totalAmount (m : AmountMap) : Int := (m.map Prod.snd).sum

/-! ## The aggregation loop of `listWallets` (lines 135-150) -/

/-- One iteration of `for t := range ch`. -/
def aggregateStep (m : AmountMap) (t : Transaction) : AmountMap :=
  -- v, ok := m[t.From]; if !ok { v = new(big.Int) }
  let v : Int := match lookup m t.From with
    | some v => v
    | none => 0
  -- m[t.From] = v.Sub(v, t.Value)
  let m := store m t.From (v - t.Value)
  -- v, ok = m[t.To]; if !ok { v = new(big.Int) }
  let v : Int := match lookup m t.To with
    | some v => v
    | none => 0
  -- m[t.To] = v.Add(v, t.Value)
  store m t.To (v + t.Value)

/-- The whole loop, started on `make(map[string]*big.Int)`, for the
transactions in the order in which they arrive on the channel. -/
def aggregate (txs : List Transaction) : AmountMap :=
  txs.foldl aggregateStep []

/-- The loop `for k, v := range m` that builds the slice `wallets` (lines
152-155), for the iteration order in which the entries are listed. -/
def walletsOf (m : AmountMap) : List wallet :=
  m.map fun kv => { address := kv.1, amount := kv.2 }

/-! ### Quantities the specification speaks of -/

/-- Total value received by `a`: the sum of `Value` over transactions with
`To = a`. -/
def received (a : String) (txs : List Transaction) : Int :=
  ((txs.filter fun t => t.To = a).map Transaction.Value).sum

/-- Total value sent by `a`: the sum of `Value` over transactions with
`From = a`. -/
def sent (a : String) (txs : List Transaction) : Int :=
  ((txs.filter fun t => t.From = a).map Transaction.Value).sum

/-- The address `a` occurs as `From` or `To` of some transaction. -/
def touched (a : String) (txs : List Transaction) : Bool :=
  txs.any fun t => t.From = a || t.To = a

/-! ## The scheduling loop of `listWallets` (lines 103-128) -/

/-- The loop `for i := 0; i < numberOfBlocks; i++`, with `remaining` standing
for `numberOfBlocks - i` and `bn` for the counter `bn`. The result lists the
values held by `bn` at each call of `g.Go`, in the order of the calls: one
entry per scheduled task. (The tasks share the pointer `bn` with the loop and
read it when they run; the list records the counter at scheduling time.) -/
def scheduleLoop : Nat → Int → List Int
  | 0, _ => []
  | remaining + 1, bn =>
    -- g.Go(func() error { ... client.GetBlockByNumber(ctx, bn, true) ... })
    -- bn.Sub(bn, big.NewInt(1))
    -- if bn.Cmp(big.NewInt(0)) == 0 { break }
    bn :: (if bn - 1 = 0 then [] else scheduleLoop remaining (bn - 1))

/-- The heights at which `listWallets(ctx, client, numberOfBlocks, blockNumber)`
schedules its retrieval tasks, in scheduling order. -/
def scheduledHeights (numberOfBlocks : Int) (blockNumber : Int) : List Int :=
  scheduleLoop numberOfBlocks.toNat blockNumber

/-- The heights `hi, hi - 1, ...`, `count` of them. -/
def descending (hi : Int) (count : Nat) : List Int :=
  (List.range count).map fun (i : Nat) => hi - (i : Int)

/-! ## Errors, tasks and `errgroup` -/

/-- A non-nil Go `error`. The only dynamic type the code tells apart is
`*jsonrpc.HTTPError`, by its field `Code`. -/
inductive GoError where
  | http (code : Int)
  | other (msg : String)
deriving DecidableEq, Repr

/-- What the function passed to `g.Go` sends on `ch`, given what
`client.GetBlockByNumber` returned to it. -/
def taskSends : Except GoError Block → List Transaction
  | .ok b => b.Transactions
  | .error _ => []

/-- What the function passed to `g.Go` returns, given what
`client.GetBlockByNumber` returned to it: `some err` for `return err`, `none`
for `return nil`. -/
def taskReturn : Except GoError Block → Option GoError
  | .ok _ => none
  | .error err => some err

/-- The method `Wait` of `errgroup.Group`: once all tasks have returned, the
first non-nil error returned by one of them, `nil` if there is none.
`returns` lists the values returned by the tasks in the order in which they
returned. -/
def errgroupWait (returns : List (Option GoError)) : Option GoError :=
  returns.findSome? id

/-- The result `wallets, g.Wait()` of `listWallets`, for the transactions in
the order `arrival` in which they are received from `ch` and the task results in
the order `returns` in which the tasks return. -/
def listWallets (arrival : List Transaction) (returns : List (Option GoError)) :
    List wallet × Option GoError :=
  (walletsOf (aggregate arrival), errgroupWait returns)

/-- One execution of `listWallets(ctx, client, numberOfBlocks, blockNumber)`:
what each scheduled retrieval returned, and how the scheduler interleaved the
tasks. -/
structure Run where
  numberOfBlocks : Int
  blockNumber : Int
  /-- What `client.GetBlockByNumber` returned in each scheduled task, in
  scheduling order. -/
  outcomes : List (Except GoError Block)
  /-- The transactions in the order they are received from `ch`. -/
  arrival : List Transaction
  /-- The task results in the order in which the tasks return. -/
  returns : List (Option GoError)

/-- The execution is one the program can produce: one outcome per scheduled
task, every task returns, and the channel delivers what the tasks send. -/
def Run.Valid (r : Run) : Prop :=
  r.outcomes.length = (scheduledHeights r.numberOfBlocks r.blockNumber).length ∧
  r.returns.Perm (r.outcomes.map taskReturn) ∧
  r.arrival.Perm (r.outcomes.map taskSends).flatten

/-- The value `listWallets` returns in the execution `r`. -/
def Run.result (r : Run) : List wallet × Option GoError :=
  listWallets r.arrival r.returns

/-- An execution with target height 10 and count 2: the retrieval of the first
task returns a block with the transaction A->B 100, the retrieval of the second
fails with HTTP 503, and the failing task returns first. -/
def failingRun : Run where
  numberOfBlocks := 2
  blockNumber := 10
  outcomes := [.ok ⟨[⟨"A", "B", 100⟩]⟩, .error (.http 503)]
  arrival := [⟨"A", "B", 100⟩]
  returns := [some (.http 503), none]

/-! ## `sortWallets` and the report of `main` -/

/-- The closure `less` that `sortWallets` passes to `sort.Slice`, on the
elements `x[i]`, `x[j]`: `x[i].amount.Cmp(x[j].amount) < 0`. -/
def walletLess (a b : wallet) : Bool :=
  decide (a.amount < b.amount)

/-- The function `sortWallets`. The library function `sort.Slice` is the
argument `sortSlice`. -/
def sortWallets (sortSlice : (wallet → wallet → Bool) → List wallet → List wallet)
    (x : List wallet) : List wallet :=
  sortSlice walletLess x

/-- The requirement of package `sort` on `less`: a strict weak ordering. -/
def StrictWeakOrdering (less : wallet → wallet → Bool) : Prop :=
  (∀ a, less a a = false) ∧
  (∀ a b c, less a b = true → less b c = true → less a c = true) ∧
  (∀ a b c, less a b = false → less b c = false → less a c = false)

/-- The documented behaviour of `sort.Slice`: for a strict weak ordering
`less` the slice is rearranged (a permutation) so that no element is `less`
than one before it. Nothing is promised on the order of equal elements. -/
def SortSliceContract
    (sortSlice : (wallet → wallet → Bool) → List wallet → List wallet) : Prop :=
  ∀ less xs, StrictWeakOrdering less →
    (sortSlice less xs).Perm xs ∧
    (sortSlice less xs).Pairwise fun a b => less b a = false

/-- An implementation of `sort.Slice` by insertion, to run the model. -/
def insertionSortSlice (less : wallet → wallet → Bool) (xs : List wallet) : List wallet :=
  xs.insertionSort fun a b => less b a = false

/-- What `main` does once the arguments are validated and `listWallets` has
returned. -/
inductive Output where
  /-- The call `log.Fatal(err)`. -/
  | fatal (err : GoError)
  /-- The line `blocks lo..hi`, then `there are no transactions`. -/
  | noTransactions (lo hi : Int)
  /-- The line `blocks lo..hi`, then the line of `max`, then the line of `min`. -/
  | ranking (lo hi : Int) (max min : wallet)
  /-- An index out of range at `wallets[0]` or `wallets[len(wallets)-1]`. -/
  | indexOutOfRange
deriving DecidableEq, Repr

/-- The two numbers of the line `blocks %v..%v` (lines 81-84):
`lessBlockNumber` and `blockNumber`. -/
def printedRange (n : Int) (blockNumber : Int) : Int × Int :=
  -- lessBlockNumber := new(big.Int).Set(blockNumber)
  -- lessBlockNumber.Sub(lessBlockNumber, big.NewInt(int64(*n)))
  (blockNumber - n, blockNumber)

/-- Lines 76-97 of `main`, on the value returned by `listWallets`. -/
def report (sortSlice : (wallet → wallet → Bool) → List wallet → List wallet)
    (n : Int) (blockNumber : Int) (res : List wallet × Option GoError) : Output :=
  match res.2 with
  | some err => .fatal err
  | none =>
    let range := printedRange n blockNumber
    if res.1.length < 1 then .noTransactions range.1 range.2
    else
      let wallets := sortWallets sortSlice res.1
      match wallets[0]?, wallets[wallets.length - 1]? with
      | some min, some max => .ranking range.1 range.2 max min
      | _, _ => .indexOutOfRange

/-! ## `Client.Call` (client.go, lines 53-73) -/

/-- What one call of `c.Client.Call(ctx, method, params)` returns: the pair
`r, err`, each possibly nil. -/
abbrev CallResult (ρ : Type) := Option ρ × Option GoError

/-- The condition under which the loop of `Call` executes `break` after an
attempt that returned `res`. -/
def stopsAfter {ρ : Type} (res : CallResult ρ) : Bool :=
  match res.2 with
  | none => true                      -- if err == nil { break }
  | some (.http code) => code < 500   -- if ok { if e.Code < 500 { break } }
  | some (.other _) => false

/-- The loop `for i := 0; i < 5; i++` of `Call`, with `remaining` standing for
`5 - i`. `attempt i` is what the call of `c.Client.Call` made in iteration `i`
returns; `cur` holds the variables `r, err`. The result is the number of calls
made so far together with the final `r, err`. -/
def callLoop {ρ : Type} (attempt : Nat → CallResult ρ) :
    Nat → Nat → CallResult ρ → Nat × CallResult ρ
  | 0, i, cur => (i, cur)
  | remaining + 1, i, _ =>
    let cur := attempt i
    if stopsAfter cur then (i + 1, cur) else callLoop attempt remaining (i + 1) cur

/-- The method `Client.Call`: the number of attempts it makes and the pair
`r, err` it returns. -/
def Call {ρ : Type} (attempt : Nat → CallResult ρ) : Nat × CallResult ρ :=
  callLoop attempt 5 0 (none, none)

/-! ## Lemmas on the map operations -/

theorem lookup_store (m : AmountMap) (k : String) (v : Int) (a : String) :
    lookup (store m k v) a = if k = a then some v else lookup m a := by
  induction m with
  | nil => simp [store, lookup]
  | cons p rest ih =>
    obtain ⟨k', v'⟩ := p
    by_cases h : k' = k
    · subst h
      by_cases ha : k' = a <;> simp [store, lookup, ha]
    · by_cases ha : k = a
      · subst ha
        simp [store, lookup, h, ih]
      · simp [store, lookup, h, ih, ha]

theorem totalAmount_store (m : AmountMap) (k : String) (v : Int) :
    totalAmount (store m k v) = totalAmount m - (lookup m k).getD 0 + v := by
  induction m with
  | nil => simp [store, lookup, totalAmount]
  | cons p rest ih =>
    obtain ⟨k', v'⟩ := p
    by_cases h : k' = k
    · simp only [store, lookup, h, if_true, totalAmount, List.map_cons, List.sum_cons,
        Option.getD_some]
      ring
    · simp only [totalAmount] at ih
      simp only [store, lookup, h, if_false, totalAmount, List.map_cons, List.sum_cons, ih]
      ring

theorem mem_keys_store (m : AmountMap) (k : String) (v : Int) (a : String) :
    a ∈ keys (store m k v) ↔ a = k ∨ a ∈ keys m := by
  induction m with
  | nil => simp [store, keys]
  | cons p rest ih =>
    obtain ⟨k', v'⟩ := p
    by_cases h : k' = k
    · subst h
      simp [store, keys]
    · simp only [keys] at ih
      simp only [store, h, if_false, keys, List.map_cons, List.mem_cons, ih]
      tauto

theorem nodup_keys_store (m : AmountMap) (k : String) (v : Int) (h : (keys m).Nodup) :
    (keys (store m k v)).Nodup := by
  induction m with
  | nil => simp [store, keys]
  | cons p rest ih =>
    obtain ⟨k', v'⟩ := p
    simp only [keys, List.map_cons, List.nodup_cons] at h
    by_cases hk : k' = k
    · subst hk
      simpa [store, keys] using h
    · have h1 := ih h.2
      have h2 := mem_keys_store rest k v k'
      simp only [store, hk, if_false, keys, List.map_cons, List.nodup_cons]
      refine ⟨?_, h1⟩
      intro hmem
      rcases h2.1 hmem with h3 | h3
      · exact hk h3
      · exact h.1 h3

theorem lookup_eq_none_iff (m : AmountMap) (a : String) :
    lookup m a = none ↔ a ∉ keys m := by
  induction m with
  | nil => simp [lookup, keys]
  | cons p rest ih =>
    obtain ⟨k', v'⟩ := p
    simp only [keys] at ih
    by_cases h : k' = a
    · simp [lookup, keys, h]
    · simp only [lookup, h, if_false, ih, keys, List.map_cons, List.mem_cons, not_or]
      constructor
      · intro h1
        exact ⟨fun h2 => h h2.symm, h1⟩
      · intro h1
        exact h1.2

theorem mem_iff_lookup (m : AmountMap) (h : (keys m).Nodup) (a : String) (v : Int) :
    (a, v) ∈ m ↔ lookup m a = some v := by
  induction m with
  | nil => simp [lookup]
  | cons p rest ih =>
    obtain ⟨k', v'⟩ := p
    simp only [keys, List.map_cons, List.nodup_cons] at h
    by_cases hk : k' = a
    · subst hk
      simp only [List.mem_cons, Prod.mk.injEq, true_and, lookup, if_true, Option.some.injEq]
      constructor
      · rintro (h1 | h1)
        · exact h1.symm
        · exact absurd (List.mem_map_of_mem Prod.fst h1) h.1
      · intro h1
        exact Or.inl h1.symm
    · simp only [List.mem_cons, Prod.mk.injEq, lookup, hk, if_false, ← ih h.2]
      constructor
      · rintro (h1 | h1)
        · exact absurd h1.1.symm hk
        · exact h1
      · intro h1
        exact Or.inr h1

/-! ## Lemmas on the aggregation loop -/

theorem totalAmount_aggregateStep (m : AmountMap) (t : Transaction) :
    totalAmount (aggregateStep m t) = totalAmount m := by
  unfold aggregateStep
  simp only [totalAmount_store]
  cases h1 : lookup m t.From <;>
    cases h2 : lookup (store m t.From _) t.To <;> simp <;> ring

theorem nodup_keys_aggregateStep (m : AmountMap) (t : Transaction) (h : (keys m).Nodup) :
    (keys (aggregateStep m t)).Nodup := by
  unfold aggregateStep
  exact nodup_keys_store _ _ _ (nodup_keys_store _ _ _ h)

theorem totalAmount_foldl (txs : List Transaction) (m : AmountMap) :
    totalAmount (txs.foldl aggregateStep m) = totalAmount m := by
  induction txs generalizing m with
  | nil => rfl
  | cons t rest ih => rw [List.foldl_cons, ih, totalAmount_aggregateStep]

theorem nodup_keys_foldl (txs : List Transaction) (m : AmountMap) (h : (keys m).Nodup) :
    (keys (txs.foldl aggregateStep m)).Nodup := by
  induction txs generalizing m with
  | nil => exact h
  | cons t rest ih =>
    rw [List.foldl_cons]
    exact ih _ (nodup_keys_aggregateStep m t h)

theorem nodup_keys_aggregate (txs : List Transaction) : (keys (aggregate txs)).Nodup :=
  nodup_keys_foldl txs [] (by simp [keys])

theorem aggregateStep_eq (m : AmountMap) (t : Transaction) :
    aggregateStep m t =
      store (store m t.From ((lookup m t.From).getD 0 - t.Value)) t.To
        ((lookup (store m t.From ((lookup m t.From).getD 0 - t.Value)) t.To).getD 0
          + t.Value) := by
  unfold aggregateStep
  cases h1 : lookup m t.From <;>
    cases h2 : lookup (store m t.From _) t.To <;> simp_all

theorem lookup_aggregateStep (m : AmountMap) (t : Transaction) (a : String) :
    lookup (aggregateStep m t) a =
      if t.From = a ∨ t.To = a then
        some ((lookup m a).getD 0 + (if t.To = a then t.Value else 0)
          - (if t.From = a then t.Value else 0))
      else lookup m a := by
  obtain ⟨f, g, x⟩ := t
  rw [aggregateStep_eq]
  simp only [lookup_store]
  by_cases hf : f = a <;> by_cases ht : g = a
  · subst hf
    subst ht
    simp
  · subst hf
    have hft : ¬ f = g := fun h => ht h.symm
    simp only [ht, hft, if_false, if_true, or_false]
    congr 1
    ring
  · subst ht
    have hft : ¬ f = g := hf
    simp only [hf, hft, if_false, if_true, or_true]
    congr 1
    ring
  · simp [hf, ht]

theorem received_cons (a : String) (t : Transaction) (txs : List Transaction) :
    received a (t :: txs) = (if t.To = a then t.Value else 0) + received a txs := by
  by_cases h : t.To = a <;> simp [received, List.filter_cons, h]

theorem sent_cons (a : String) (t : Transaction) (txs : List Transaction) :
    sent a (t :: txs) = (if t.From = a then t.Value else 0) + sent a txs := by
  by_cases h : t.From = a <;> simp [sent, List.filter_cons, h]

theorem touched_cons (a : String) (t : Transaction) (txs : List Transaction) :
    touched a (t :: txs) = (decide (t.From = a ∨ t.To = a) || touched a txs) := by
  simp [touched, List.any_cons]

theorem lookup_foldl (txs : List Transaction) (m : AmountMap) (a : String) :
    lookup (txs.foldl aggregateStep m) a =
      if touched a txs then some ((lookup m a).getD 0 + received a txs - sent a txs)
      else lookup m a := by
  induction txs generalizing m with
  | nil => simp [touched]
  | cons t rest ih =>
    rw [List.foldl_cons, ih, lookup_aggregateStep, received_cons, sent_cons, touched_cons]
    by_cases h1 : t.From = a ∨ t.To = a
    · by_cases h2 : touched a rest = true
      · simp only [h1, h2, if_true, Option.getD_some, decide_True, Bool.or_self]
        congr 1
        ring
      · simp only [Bool.not_eq_true] at h2
        simp only [h1, h2, if_true, decide_True, Bool.or_false]
        have hr : received a rest = 0 := by
          simp only [touched, List.any_eq_false] at h2
          simp only [received]
          rw [List.filter_eq_nil_iff.2]
          · simp
          · intro t' ht'
            have := h2 t' ht'
            simp only [Bool.or_eq_true, decide_eq_true_eq, not_or] at this
            simpa using this.2
        have hs : sent a rest = 0 := by
          simp only [touched, List.any_eq_false] at h2
          simp only [sent]
          rw [List.filter_eq_nil_iff.2]
          · simp
          · intro t' ht'
            have := h2 t' ht'
            simp only [Bool.or_eq_true, decide_eq_true_eq, not_or] at this
            simpa using this.1
        rw [hr, hs]
        simp
    · have h3 : (if t.To = a then t.Value else 0) = 0 := by
        rw [if_neg]; exact fun h => h1 (Or.inr h)
      have h4 : (if t.From = a then t.Value else 0) = 0 := by
        rw [if_neg]; exact fun h => h1 (Or.inl h)
      simp only [h1, if_false, decide_False, Bool.false_or, h3, h4, zero_add]

theorem lookup_aggregate (txs : List Transaction) (a : String) :
    lookup (aggregate txs) a =
      if touched a txs then some (received a txs - sent a txs) else none := by
  unfold aggregate
  rw [lookup_foldl]
  simp [lookup]

theorem touched_perm {l₁ l₂ : List Transaction} (h : l₁.Perm l₂) (a : String) :
    touched a l₁ = touched a l₂ := by
  unfold touched
  rw [Bool.eq_iff_iff]
  simp only [List.any_eq_true]
  constructor
  · rintro ⟨t, ht, hp⟩
    exact ⟨t, h.mem_iff.1 ht, hp⟩
  · rintro ⟨t, ht, hp⟩
    exact ⟨t, h.mem_iff.2 ht, hp⟩

theorem received_perm {l₁ l₂ : List Transaction} (h : l₁.Perm l₂) (a : String) :
    received a l₁ = received a l₂ :=
  ((h.filter _).map _).sum_eq

theorem sent_perm {l₁ l₂ : List Transaction} (h : l₁.Perm l₂) (a : String) :
    sent a l₁ = sent a l₂ :=
  ((h.filter _).map _).sum_eq

theorem lookup_aggregate_perm {l₁ l₂ : List Transaction} (h : l₁.Perm l₂) (a : String) :
    lookup (aggregate l₁) a = lookup (aggregate l₂) a := by
  rw [lookup_aggregate, lookup_aggregate, touched_perm h, received_perm h, sent_perm h]

theorem nodup_of_nodup_keys (m : AmountMap) (h : (keys m).Nodup) : m.Nodup :=
  List.Nodup.of_map Prod.fst h

theorem perm_of_lookup_eq (m₁ m₂ : AmountMap) (h₁ : (keys m₁).Nodup) (h₂ : (keys m₂).Nodup)
    (h : ∀ a, lookup m₁ a = lookup m₂ a) : m₁.Perm m₂ := by
  rw [List.perm_ext_iff_of_nodup (nodup_of_nodup_keys m₁ h₁) (nodup_of_nodup_keys m₂ h₂)]
  rintro ⟨a, v⟩
  rw [mem_iff_lookup m₁ h₁, mem_iff_lookup m₂ h₂, h a]

/-! ## Lemmas on the scheduling loop -/

theorem length_scheduleLoop_le (c : Nat) (bn : Int) : (scheduleLoop c bn).length ≤ c := by
  induction c generalizing bn with
  | zero => simp [scheduleLoop]
  | succ k ih =>
    simp only [scheduleLoop]
    split
    · simp
    · simpa using ih (bn - 1)

theorem descending_succ (hi : Int) (k : Nat) :
    descending hi (k + 1) = hi :: descending (hi - 1) k := by
  simp only [descending, List.range_succ_eq_map, List.map_cons, List.map_map]
  congr 1
  · simp
  · apply List.map_congr_left
    intro i _
    simp only [Function.comp, Nat.cast_succ]
    ring

/-- While the counter does not reach zero the loop runs `c` times. -/
theorem scheduleLoop_of_lt (c : Nat) (bn : Int) (h : bn ≤ 0 ∨ (c : Int) ≤ bn) :
    scheduleLoop c bn = descending bn c := by
  induction c generalizing bn with
  | zero => simp [scheduleLoop, descending]
  | succ k ih =>
    rw [descending_succ]
    simp only [scheduleLoop]
    by_cases hz : bn - 1 = 0
    · have hk : k = 0 := by
        rcases h with h | h
        · omega
        · push_cast at h
          omega
      subst hk
      simp [hz, descending]
    · rw [if_neg hz, ih (bn - 1)]
      rcases h with h | h
      · exact Or.inl (by omega)
      · push_cast at h
        exact Or.inr (by omega)

/-- From a positive height, with at least as many rounds as the height, the
loop stops when the counter reaches zero: heights `bn, ..., 1`. -/
theorem scheduleLoop_of_ge (c : Nat) (bn : Nat) (h0 : 0 < bn) (h : bn ≤ c) :
    scheduleLoop c (bn : Int) = descending bn bn := by
  induction c generalizing bn with
  | zero => omega
  | succ k ih =>
    obtain ⟨b, rfl⟩ : ∃ b, bn = b + 1 := ⟨bn - 1, by omega⟩
    rw [descending_succ]
    simp only [scheduleLoop]
    by_cases hz : ((b + 1 : Nat) : Int) - 1 = 0
    · have hb : b = 0 := by push_cast at hz; omega
      subst hb
      simp [descending]
    · have hb : 0 < b := by push_cast at hz; omega
      have e : ((b + 1 : Nat) : Int) - 1 = (b : Int) := by push_cast; ring
      rw [if_neg hz, e, ih b hb (by omega)]

/-! ## Lemmas on sorting and ranking -/

theorem walletLess_strictWeakOrdering : StrictWeakOrdering walletLess := by
  refine ⟨fun a => ?_, fun a b c => ?_, fun a b c => ?_⟩
  · simp [walletLess]
  · simp only [walletLess, decide_eq_true_eq]
    exact lt_trans
  · simp only [walletLess, decide_eq_false_iff_not, not_lt]
    exact fun h1 h2 => le_trans h2 h1

theorem insertionSortSlice_contract : SortSliceContract insertionSortSlice := by
  intro less xs hless
  obtain ⟨hirr, htr, hneg⟩ := hless
  refine ⟨List.perm_insertionSort _ xs, ?_⟩
  haveI : IsTotal wallet (fun a b => less b a = false) := ⟨fun a b => by
    cases hba : less b a
    · exact Or.inl rfl
    · right
      cases hab : less a b
      · rfl
      · have := htr a b a hab hba
        rw [hirr a] at this
        exact absurd this (by simp)⟩
  haveI : IsTrans wallet (fun a b => less b a = false) :=
    ⟨fun a b c hab hbc => hneg c b a hbc hab⟩
  exact List.sorted_insertionSort (fun a b => less b a = false) xs

/-- In a list in which no element is `walletLess` than an earlier one, the
first element has the least amount and the last one the greatest. -/
theorem extremes_of_pairwise (ws : List wallet) (hne : ws ≠ [])
    (hs : ws.Pairwise fun a b => walletLess b a = false) :
    ∃ mn mx, ws[0]? = some mn ∧ ws[ws.length - 1]? = some mx ∧
      (∀ w ∈ ws, mn.amount ≤ w.amount) ∧ (∀ w ∈ ws, w.amount ≤ mx.amount) := by
  have hle : ws.Pairwise fun a b => a.amount ≤ b.amount := by
    refine hs.imp ?_
    intro a b h
    simpa [walletLess] using h
  refine ⟨ws.head hne, ws.getLast hne, ?_, ?_, ?_, ?_⟩
  · cases ws with
    | nil => exact absurd rfl hne
    | cons a rest => simp
  · rw [← List.getLast?_eq_getElem?, List.getLast?_eq_getLast _ hne]
  · cases ws with
    | nil => exact absurd rfl hne
    | cons a rest =>
      intro w hw
      rw [List.pairwise_cons] at hle
      rcases List.mem_cons.1 hw with h | h
      · simp [h]
      · simpa using hle.1 w h
  · intro w hw
    have hsplit := List.dropLast_append_getLast hne
    rw [← hsplit] at hle hw
    rw [List.pairwise_append] at hle
    rcases List.mem_append.1 hw with h | h
    · exact hle.2.2 w h _ (by simp)
    · simp only [List.mem_singleton] at h
      rw [h]

/-! ## Lemmas on `Client.Call` -/

theorem stopsAfter_iff {ρ : Type} (res : CallResult ρ) :
    stopsAfter res = true ↔
      res.2 = none ∨ ∃ code, res.2 = some (GoError.http code) ∧ code < 500 := by
  obtain ⟨r, err⟩ := res
  cases err with
  | none => simp [stopsAfter]
  | some e =>
    cases e with
    | http code => simp [stopsAfter]
    | other msg => simp [stopsAfter]

theorem callLoop_spec {ρ : Type} (attempt : Nat → CallResult ρ) (remaining i : Nat)
    (cur : CallResult ρ) (hpos : 0 < remaining) :
    i < (callLoop attempt remaining i cur).1 ∧
    (callLoop attempt remaining i cur).1 ≤ i + remaining ∧
    (callLoop attempt remaining i cur).2
      = attempt ((callLoop attempt remaining i cur).1 - 1) ∧
    (∀ j, i ≤ j → j + 1 < (callLoop attempt remaining i cur).1 →
      stopsAfter (attempt j) = false) ∧
    ((callLoop attempt remaining i cur).1 < i + remaining →
      stopsAfter (attempt ((callLoop attempt remaining i cur).1 - 1)) = true) := by
  induction remaining generalizing i cur with
  | zero => omega
  | succ k ih =>
    by_cases hstop : stopsAfter (attempt i) = true
    · have e : callLoop attempt (k + 1) i cur = (i + 1, attempt i) := by
        simp [callLoop, hstop]
      rw [e]
      refine ⟨by simp, by simp, by simp, ?_, ?_⟩
      · intro j h1 h2
        simp only at h2
        omega
      · intro _
        simpa using hstop
    · simp only [Bool.not_eq_true] at hstop
      rcases Nat.eq_zero_or_pos k with hk | hk
      · subst hk
        have e : callLoop attempt (0 + 1) i cur = (i + 1, attempt i) := by
          simp [callLoop, hstop]
        rw [e]
        refine ⟨by simp, by simp, by simp, ?_, ?_⟩
        · intro j h1 h2
          simp only at h2
          omega
        · intro h
          simp only at h
          omega
      · have e : callLoop attempt (k + 1) i cur = callLoop attempt k (i + 1) (attempt i) := by
          simp [callLoop, hstop]
        rw [e]
        obtain ⟨h1, h2, h3, h4, h5⟩ := ih (i + 1) (attempt i) hk
        refine ⟨by omega, by omega, h3, ?_, fun h => h5 (by omega)⟩
        intro j hj1 hj2
        rcases Nat.eq_or_lt_of_le hj1 with h | h
        · rw [← h]
          exact hstop
        · exact h4 j h hj2

/-! ## Aggregation: conservation, net amounts, order independence -/

theorem received_eq_sent_of_self (a : String) (txs : List Transaction)
    (h : ∀ t ∈ txs, (t.From = a ∨ t.To = a) → t.From = t.To) :
    received a txs = sent a txs := by
  unfold received sent
  congr 2
  apply List.filter_congr
  intro t ht
  by_cases h1 : t.To = a
  · have := h t ht (Or.inr h1)
    simp [h1, this.trans h1]
  · by_cases h2 : t.From = a
    · have := h t ht (Or.inl h2)
      exact absurd (this.symm.trans h2) h1
    · simp [h1, h2]

theorem touched_iff (a : String) (txs : List Transaction) :
    touched a txs = true ↔ ∃ t ∈ txs, t.From = a ∨ t.To = a := by
  simp [touched, List.any_eq_true]

theorem mem_keys_aggregate (txs : List Transaction) (a : String) :
    a ∈ keys (aggregate txs) ↔ ∃ t ∈ txs, t.From = a ∨ t.To = a := by
  rw [← touched_iff, ← not_iff_not, ← lookup_eq_none_iff, lookup_aggregate]
  by_cases h : touched a txs = true <;> simp [h]

/-- C1 (conservation). For every sequence of transactions (with any integer
values, the non-negative ones included) and every prefix `txs.take k` of it:
the aggregation loop of `listWallets` run on the whole sequence passes through
the map it builds from the prefix, that map has one entry per key, and the sum
of its amounts is exactly zero. -/
theorem C1_conservation (txs : List Transaction) (k : Nat) :
    aggregate txs = (txs.drop k).foldl aggregateStep (aggregate (txs.take k)) ∧
    (keys (aggregate (txs.take k))).Nodup ∧
    totalAmount (aggregate (txs.take k)) = 0 := by
  refine ⟨?_, nodup_keys_aggregate _, ?_⟩
  · unfold aggregate
    rw [← List.foldl_append, List.take_append_drop]
  · unfold aggregate
    rw [totalAmount_foldl]
    rfl

/-- C2 (net amount is received minus sent). For every sequence of
transactions, the key set of the map built by the aggregation loop of
`listWallets` is exactly the set of addresses occurring as `From` or `To`; each
such address is mapped to the sum of the values it received minus the sum of
the values it sent; an address touched by self-transfers only is present with
amount zero; and the transactions A->B 100, B->C 30 give A = -100, B = +70,
C = +30. -/
theorem C2_net_amount (txs : List Transaction) :
    (keys (aggregate txs)).Nodup ∧
    (∀ a, a ∈ keys (aggregate txs) ↔ ∃ t ∈ txs, t.From = a ∨ t.To = a) ∧
    (∀ a, a ∈ keys (aggregate txs) →
      lookup (aggregate txs) a = some (received a txs - sent a txs)) ∧
    (∀ a, a ∈ keys (aggregate txs) →
      (∀ t ∈ txs, (t.From = a ∨ t.To = a) → t.From = t.To) →
      lookup (aggregate txs) a = some 0) ∧
    aggregate [⟨"A", "B", 100⟩, ⟨"B", "C", 30⟩] = [("A", -100), ("B", 70), ("C", 30)] := by
  refine ⟨nodup_keys_aggregate _, mem_keys_aggregate txs, ?_, ?_, by decide⟩
  · intro a ha
    rw [mem_keys_aggregate, ← touched_iff] at ha
    rw [lookup_aggregate, if_pos ha]
  · intro a ha hself
    rw [mem_keys_aggregate, ← touched_iff] at ha
    rw [lookup_aggregate, if_pos ha, received_eq_sent_of_self a txs hself, sub_self]

/-- C3 (order independence). For every list of transactions and every
permutation of it, the aggregation loop of `listWallets` builds the same map
from both: the same key set, the same amount for every key, hence the same
entries. -/
theorem C3_order_independence (l₁ l₂ : List Transaction) (h : l₁.Perm l₂) :
    (∀ a, a ∈ keys (aggregate l₁) ↔ a ∈ keys (aggregate l₂)) ∧
    (∀ a, lookup (aggregate l₁) a = lookup (aggregate l₂) a) ∧
    (aggregate l₁).Perm (aggregate l₂) := by
  refine ⟨?_, fun a => lookup_aggregate_perm h a, ?_⟩
  · intro a
    rw [mem_keys_aggregate, mem_keys_aggregate]
    constructor
    · rintro ⟨t, ht, hp⟩
      exact ⟨t, h.mem_iff.1 ht, hp⟩
    · rintro ⟨t, ht, hp⟩
      exact ⟨t, h.mem_iff.2 ht, hp⟩
  · exact perm_of_lookup_eq _ _ (nodup_keys_aggregate _) (nodup_keys_aggregate _)
      (fun a => lookup_aggregate_perm h a)

/-- Witness of C3: the transactions A->B 100, B->C 30 in both orders. The two
maps list their entries in different orders and agree on every key. -/
theorem C3_order_independence_witness :
    [(⟨"A", "B", 100⟩ : Transaction), ⟨"B", "C", 30⟩].Perm [⟨"B", "C", 30⟩, ⟨"A", "B", 100⟩] ∧
    aggregate [⟨"B", "C", 30⟩, ⟨"A", "B", 100⟩] = [("B", 70), ("C", 30), ("A", -100)] ∧
    (∀ a, lookup (aggregate [⟨"A", "B", 100⟩, ⟨"B", "C", 30⟩]) a
      = lookup (aggregate [⟨"B", "C", 30⟩, ⟨"A", "B", 100⟩]) a) :=
  ⟨List.Perm.swap _ _ _, by decide,
    (C3_order_independence _ _ (List.Perm.swap _ _ _)).2.1⟩

/-! ## Scheduling: what the loop does -/

/-- A window that ends above genesis (`c ≤ h`) is scheduled in full: `c` tasks
at heights `h, h - 1, ..., h - c + 1`. -/
theorem scheduledHeights_above_genesis (c h : Nat) (hc : c ≤ h) :
    scheduledHeights c h = descending h c := by
  simp only [scheduledHeights, Int.toNat_ofNat]
  exact scheduleLoop_of_lt c h (Or.inr (by exact_mod_cast hc))

/-- From a target `h ≥ 1` with `h ≤ c` the loop stops once the counter holds
zero, before a task for height zero is scheduled: `h` tasks at heights
`h, ..., 1`. -/
theorem scheduledHeights_reaching_genesis (c h : Nat) (h0 : 0 < h) (hc : h ≤ c) :
    scheduledHeights c h = descending h h := by
  simp only [scheduledHeights, Int.toNat_ofNat]
  exact scheduleLoop_of_ge c h h0 hc

/-- From target zero the counter is never zero after the decrement: `c` tasks
at heights `0, -1, ..., -(c - 1)`. -/
theorem scheduledHeights_from_genesis (c : Nat) :
    scheduledHeights c 0 = descending 0 c := by
  simp only [scheduledHeights, Int.toNat_ofNat]
  exact scheduleLoop_of_lt c 0 (Or.inl le_rfl)

/-- At most `c` tasks are scheduled. -/
theorem length_scheduledHeights_le (c : Nat) (h : Int) :
    (scheduledHeights c h).length ≤ c := by
  simp only [scheduledHeights, Int.toNat_ofNat]
  exact length_scheduleLoop_le c h

/-- C4 (full-window scheduling), evaluated at target height 1 and count 2,
where `h - c + 1 = 0`: the loop schedules one task, at height 1, and stops
because the counter holds zero after the decrement; the claim has two tasks,
at heights 1 and 0. -/
theorem C4_full_window_at_genesis :
    (1 : Int) - 2 + 1 ≥ 0 ∧
    scheduledHeights 2 1 = [1] ∧
    (scheduledHeights 2 1).length ≠ 2 ∧
    scheduledHeights 2 1 ≠ descending 1 2 := by
  decide

/-- C5 (range clamping), evaluated at target height 3 and count 500: the loop
schedules three tasks, at heights 3, 2, 1; the claim has four, at heights
3, 2, 1, 0. -/
theorem C5_range_clamping_at_3_500 :
    (3 : Int) - 500 + 1 < 0 ∧
    scheduledHeights 500 3 = [3, 2, 1] ∧
    (scheduledHeights 500 3).length ≠ 3 + 1 ∧
    (0 : Int) ∉ scheduledHeights 500 3 := by
  decide

/-- C6 (no fetch below genesis), evaluated at target height 0 and count 2: the
loop schedules two tasks, at heights 0 and -1; the claim has every scheduled
height at least 0. -/
theorem C6_below_genesis_at_0_2 :
    scheduledHeights 2 0 = [0, -1] ∧
    ¬ ∀ x ∈ scheduledHeights 2 0, 0 ≤ x := by
  decide


/-! ## Ranking -/

/-- C7 (ranking extremes). For every `sort.Slice` that meets its contract and
every non-empty list of wallets: after `sortWallets` the list is a permutation
of the input in ascending order of amount; the wallet at index 0 has an amount
at most that of every wallet, the wallet at the last index an amount at least
that of every wallet; and these two are what `main` reports as min and max.
With A = -500000000000000000 and B = +500000000000000000, in either order,
min is A and max is B. -/
theorem C7_ranking_extremes
    (sortSlice : (wallet → wallet → Bool) → List wallet → List wallet)
    (hsort : SortSliceContract sortSlice) :
    (∀ x : List wallet, x ≠ [] →
      (sortWallets sortSlice x).Perm x ∧
      (sortWallets sortSlice x).Pairwise (fun a b => a.amount ≤ b.amount) ∧
      ∃ mn mx,
        (sortWallets sortSlice x)[0]? = some mn ∧
        (sortWallets sortSlice x)[(sortWallets sortSlice x).length - 1]? = some mx ∧
        (∀ w ∈ x, mn.amount ≤ w.amount) ∧
        (∀ w ∈ x, w.amount ≤ mx.amount) ∧
        ∀ n blockNumber, report sortSlice n blockNumber (x, none)
          = .ranking (blockNumber - n) blockNumber mx mn) ∧
    (∀ x : List wallet,
      x.Perm [⟨"A", -500000000000000000⟩, ⟨"B", 500000000000000000⟩] →
      ∀ n blockNumber, report sortSlice n blockNumber (x, none)
        = .ranking (blockNumber - n) blockNumber
            ⟨"B", 500000000000000000⟩ ⟨"A", -500000000000000000⟩) := by
  have main : ∀ x : List wallet, x ≠ [] →
      (sortWallets sortSlice x).Perm x ∧
      (sortWallets sortSlice x).Pairwise (fun a b => a.amount ≤ b.amount) ∧
      ∃ mn mx,
        (sortWallets sortSlice x)[0]? = some mn ∧
        (sortWallets sortSlice x)[(sortWallets sortSlice x).length - 1]? = some mx ∧
        (∀ w ∈ x, mn.amount ≤ w.amount) ∧
        (∀ w ∈ x, w.amount ≤ mx.amount) ∧
        ∀ n blockNumber, report sortSlice n blockNumber (x, none)
          = .ranking (blockNumber - n) blockNumber mx mn := by
    intro x hx
    obtain ⟨hperm, hpair⟩ := hsort walletLess x walletLess_strictWeakOrdering
    have hne : sortWallets sortSlice x ≠ [] := by
      intro h
      unfold sortWallets at h
      rw [h] at hperm
      exact hx hperm.symm.eq_nil
    obtain ⟨mn, mx, h0, h1, hmin, hmax⟩ := extremes_of_pairwise _ hne hpair
    refine ⟨hperm, ?_, mn, mx, h0, h1, ?_, ?_, ?_⟩
    · refine hpair.imp ?_
      intro a b h
      simpa [walletLess] using h
    · intro w hw
      exact hmin w (hperm.mem_iff.2 hw)
    · intro w hw
      exact hmax w (hperm.mem_iff.2 hw)
    · intro n blockNumber
      have hlen : ¬ x.length < 1 := by
        cases x with
        | nil => exact absurd rfl hx
        | cons a rest => simp
      simp only [report, printedRange, hlen, if_false, h0, h1]
  refine ⟨main, ?_⟩
  intro x hx n blockNumber
  have hx0 : x ≠ [] := by
    intro h
    rw [h] at hx
    exact absurd hx.symm.eq_nil (by simp)
  obtain ⟨hperm, _, mn, mx, h0, h1, hmin, hmax, hrep⟩ := main x hx0
  have hmem : ∀ w, w ∈ sortWallets sortSlice x →
      w = ⟨"A", -500000000000000000⟩ ∨ w = ⟨"B", 500000000000000000⟩ := by
    intro w hw
    have := hx.mem_iff.1 (hperm.mem_iff.1 hw)
    simpa using this
  have hA : (⟨"A", -500000000000000000⟩ : wallet) ∈ x := hx.mem_iff.2 (by simp)
  have hB : (⟨"B", 500000000000000000⟩ : wallet) ∈ x := hx.mem_iff.2 (by simp)
  have hmn : mn = ⟨"A", -500000000000000000⟩ := by
    rcases hmem mn (List.getElem?_mem h0) with h | h
    · exact h
    · have := hmin _ hA
      rw [h] at this
      exact absurd this (by decide)
  have hmx : mx = ⟨"B", 500000000000000000⟩ := by
    rcases hmem mx (List.getElem?_mem h1) with h | h
    · have := hmax _ hB
      rw [h] at this
      exact absurd this (by decide)
    · exact h
  rw [hrep, hmn, hmx]

/-- Witness of C7: with `sort.Slice` implemented by insertion, the wallets
listed as B, A are reported as max = B, min = A. -/
theorem C7_ranking_extremes_witness :
    SortSliceContract insertionSortSlice ∧
    sortWallets insertionSortSlice
        [⟨"B", 500000000000000000⟩, ⟨"A", -500000000000000000⟩]
      = [⟨"A", -500000000000000000⟩, ⟨"B", 500000000000000000⟩] ∧
    report insertionSortSlice 2 100
        ([⟨"B", 500000000000000000⟩, ⟨"A", -500000000000000000⟩], none)
      = .ranking 98 100 ⟨"B", 500000000000000000⟩ ⟨"A", -500000000000000000⟩ :=
  ⟨insertionSortSlice_contract, by decide,
    (C7_ranking_extremes insertionSortSlice insertionSortSlice_contract).2 _
      (List.Perm.swap _ _ _) 2 100⟩

/-! ## Errors of the retrievals -/

theorem errgroupWait_of_mem (returns : List (Option GoError))
    (h : ∃ err, some err ∈ returns) :
    ∃ err, errgroupWait returns = some err ∧ some err ∈ returns := by
  induction returns with
  | nil =>
    obtain ⟨err, herr⟩ := h
    exact absurd herr (by simp)
  | cons x rest ih =>
    cases x with
    | some e => exact ⟨e, by simp [errgroupWait, List.findSome?], by simp⟩
    | none =>
      obtain ⟨err, herr⟩ := h
      have hrest : some err ∈ rest := by simpa using herr
      obtain ⟨e, he, hmem⟩ := ih ⟨err, hrest⟩
      refine ⟨e, ?_, List.mem_cons_of_mem _ hmem⟩
      simpa [errgroupWait, List.findSome?] using he

theorem mem_map_taskReturn (outcomes : List (Except GoError Block)) (err : GoError) :
    some err ∈ outcomes.map taskReturn ↔ Except.error err ∈ outcomes := by
  simp only [List.mem_map]
  constructor
  · rintro ⟨o, ho, h⟩
    cases o with
    | ok b => simp [taskReturn] at h
    | error e =>
      simp only [taskReturn, Option.some.injEq] at h
      rw [← h]
      exact ho
  · intro h
    exact ⟨_, h, rfl⟩

theorem report_fatal_iff (sortSlice : (wallet → wallet → Bool) → List wallet → List wallet)
    (n blockNumber : Int) (res : List wallet × Option GoError) (err : GoError) :
    report sortSlice n blockNumber res = .fatal err ↔ res.2 = some err := by
  obtain ⟨ws, e⟩ := res
  cases e with
  | some e => simp [report]
  | none =>
    simp only [report]
    split
    · simp
    · split <;> simp

/-- C8 (all-or-nothing). In every execution of `listWallets` in which at least
one scheduled retrieval returns an error, whatever the other retrievals
return, in whatever order the tasks return and the transactions arrive,
`listWallets` returns a non-nil error (one returned by a retrieval) and `main`
ends in `log.Fatal` with it; and whenever `main` prints a block range or a
ranking, `listWallets` had returned a nil error. -/
theorem C8_all_or_nothing (r : Run) (hv : r.Valid)
    (hfail : ∃ err, Except.error err ∈ r.outcomes) :
    (∃ err, r.result.2 = some err ∧ Except.error err ∈ r.outcomes ∧
      ∀ sortSlice, report sortSlice r.numberOfBlocks r.blockNumber r.result = .fatal err) ∧
    (∀ sortSlice n blockNumber res lo hi,
      (report sortSlice n blockNumber res = .noTransactions lo hi ∨
        ∃ mx mn, report sortSlice n blockNumber res = .ranking lo hi mx mn) →
      res.2 = none) := by
  constructor
  · obtain ⟨err, herr⟩ := hfail
    have h1 : some err ∈ r.returns :=
      hv.2.1.mem_iff.2 ((mem_map_taskReturn _ _).2 herr)
    obtain ⟨e, he, hmem⟩ := errgroupWait_of_mem r.returns ⟨err, h1⟩
    have h2 : Except.error e ∈ r.outcomes :=
      (mem_map_taskReturn _ _).1 (hv.2.1.mem_iff.1 hmem)
    have h3 : r.result.2 = some e := he
    exact ⟨e, h3, h2, fun sortSlice => (report_fatal_iff _ _ _ _ _).2 h3⟩
  · intro sortSlice n blockNumber res lo hi h
    cases hres : res.2 with
    | none => rfl
    | some e =>
      have hf := (report_fatal_iff sortSlice n blockNumber res e).2 hres
      rcases h with h | ⟨mx, mn, h⟩
      · rw [hf] at h
        exact absurd h (by simp)
      · rw [hf] at h
        exact absurd h (by simp)

/-- Witness of C8: in `failingRun` the second of two retrievals fails with
HTTP 503; `listWallets` returns that error next to the wallets aggregated from
the first block, and `main` ends in `log.Fatal`. -/
theorem C8_all_or_nothing_witness :
    failingRun.Valid ∧ (∃ err, Except.error err ∈ failingRun.outcomes) ∧
    failingRun.result = ([⟨"A", -100⟩, ⟨"B", 100⟩], some (GoError.http 503)) ∧
    (∃ err, failingRun.result.2 = some err ∧ Except.error err ∈ failingRun.outcomes ∧
      ∀ sortSlice, report sortSlice failingRun.numberOfBlocks failingRun.blockNumber
        failingRun.result = .fatal err) :=
  have hv : failingRun.Valid :=
    ⟨by decide, List.Perm.swap _ _ _, by simp [failingRun, taskSends]⟩
  have hf : ∃ err, Except.error err ∈ failingRun.outcomes :=
    ⟨.http 503, by simp [failingRun]⟩
  ⟨hv, hf, by decide, (C8_all_or_nothing failingRun hv hf).1⟩

/-! ## The printed range -/

/-- C9 (reported range is the scanned range), evaluated on a successful run
with target height 10 and count 3 in which the block at height 10 holds the
transaction A->B 100: tasks are scheduled at heights 10, 9, 8 and `main`
prints `blocks 7..10`; the claim has `lo = 8`. With target height 3 and count
500 the printed `lo` is -497; the claim has `lo` never negative. -/
theorem C9_printed_range_at_10_3 :
    scheduledHeights 3 10 = [10, 9, 8] ∧
    report insertionSortSlice 3 10 (listWallets [⟨"A", "B", 100⟩] [none, none, none])
      = .ranking 7 10 ⟨"B", 100⟩ ⟨"A", -100⟩ ∧
    (7 : Int) ∉ scheduledHeights 3 10 ∧
    scheduledHeights 500 3 = [3, 2, 1] ∧
    printedRange 500 3 = (-497, 3) := by
  decide

/-! ## Bounded retry -/

/-- C10 (bounded retry). For every sequence of attempt outcomes, `Client.Call`
makes at least 1 and at most 5 attempts; it returns the `r, err` of the last
attempt it made; it stops at the first attempt that succeeds or fails with an
HTTP error of code below 500; when no attempt is of that kind, in particular
when every attempt fails with an HTTP error of code at least 500, it makes
exactly 5 attempts. -/
theorem C10_bounded_retry {ρ : Type} (attempt : Nat → CallResult ρ) :
    1 ≤ (Call attempt).1 ∧ (Call attempt).1 ≤ 5 ∧
    (Call attempt).2 = attempt ((Call attempt).1 - 1) ∧
    (∀ i, i < 5 →
      ((attempt i).2 = none ∨
        ∃ code, (attempt i).2 = some (GoError.http code) ∧ code < 500) →
      (∀ j, j < i →
        ¬ ((attempt j).2 = none ∨
          ∃ code, (attempt j).2 = some (GoError.http code) ∧ code < 500)) →
      (Call attempt).1 = i + 1) ∧
    ((∀ i, i < 5 →
        ¬ ((attempt i).2 = none ∨
          ∃ code, (attempt i).2 = some (GoError.http code) ∧ code < 500)) →
      (Call attempt).1 = 5) ∧
    ((∀ i, i < 5 → ∃ code, (attempt i).2 = some (GoError.http code) ∧ 500 ≤ code) →
      (Call attempt).1 = 5) := by
  obtain ⟨h1, h2, h3, h4, h5⟩ := callLoop_spec attempt 5 0 (none, none) (by decide)
  have hall : (∀ i, i < 5 → stopsAfter (attempt i) = false) → (Call attempt).1 = 5 := by
    intro hno
    by_contra hne
    have hlt : (Call attempt).1 < 0 + 5 := by
      unfold Call at hne ⊢
      omega
    have := h5 hlt
    rw [hno _ (by unfold Call at hlt; omega)] at this
    exact absurd this (by simp)
  refine ⟨h1, by simpa using h2, h3, ?_, ?_, ?_⟩
  · intro i hi hstop hbefore
    rw [← stopsAfter_iff] at hstop
    by_contra hne
    rcases Nat.lt_or_gt_of_ne hne with hlt | hgt
    · have hk : (callLoop attempt 5 0 (none, none)).1 < 0 + 5 := by
        unfold Call at hlt
        omega
      have hs := h5 hk
      rw [stopsAfter_iff] at hs
      exact hbefore _ (by unfold Call at hlt; omega) hs
    · have := h4 i (Nat.zero_le _) hgt
      rw [hstop] at this
      exact absurd this (by simp)
  · intro hno
    apply hall
    intro i hi
    have := hno i hi
    rw [← stopsAfter_iff] at this
    simpa using this
  · intro h500
    apply hall
    intro i hi
    obtain ⟨code, hc, hge⟩ := h500 i hi
    cases hs : stopsAfter (attempt i) with
    | false => rfl
    | true =>
      rw [stopsAfter_iff, hc] at hs
      rcases hs with hs | ⟨c, hs1, hs2⟩
      · exact absurd hs (by simp)
      · simp only [Option.some.injEq, GoError.http.injEq] at hs1
        omega

end Wtop
